import Mathlib

/-!
Verification of `detect.py` (yolov5-rt-stack detection driver).

The file embeds the pure content of `load_names` and `overlay_boxes` from
`src/detect.py` in Lean: file contents are strings, the filesystem effects of
`overlay_boxes` are recorded as an ordered event list, Python exceptions are an
explicit error type, and floating-point box coordinates are rationals.
-/

set_option autoImplicit false

namespace Detect

/-! ## Embedded program: definitions -/

/-- Python `str.strip()`: remove leading and trailing whitespace. -/
def pyStrip (s : String) : String :=
  String.mk (((s.data.dropWhile Char.isWhitespace).reverse.dropWhile
    Char.isWhitespace).reverse)

/-- Helper for `fileLines`: split a character list at newlines, the way Python
iterates the lines of an open text file (each yielded line is taken here
without its trailing newline; the final segment is dropped when empty because
a trailing newline ends the last line rather than starting a new one). -/
def linesAux : List Char → List Char → List String
  | [], [] => []
  | [], acc => [String.mk acc.reverse]
  | c :: rest, acc =>
    if c = '\n' then String.mk acc.reverse :: linesAux rest []
    else linesAux rest (c :: acc)

/-- The lines of a text file with contents `s`, matching Python's
`for line in f` (modulo the trailing `'\n'`, which `str.strip()` removes
anyway in the code under study). -/
def fileLines (s : String) : List String :=
  linesAux s.data []

/-- The accumulation loop of `load_names`:
`for line in f: names.append(line.strip())`. -/
def loadLoop : List String → List String → List String
  | [], names => names
  | l :: ls, names => loadLoop ls (names ++ [pyStrip l])

/-- Function `load_names(category_path)` given the contents of the opened file:
starts from the empty list and appends the stripped form of every line. -/
def load_names (contents : String) : List String :=
  loadLoop (fileLines contents) []

/-- Function `load_names` including the `open` call: the attempted read of the file is
an `Except` value (error = exception raised by `open`/read).  The function
body contains no `try`/`except`, so an error is returned exactly as produced
by the environment. -/
def load_names_io (file : Except String String) : Except String (List String) :=
  match file with
  | .error e => .error e
  | .ok contents => .ok (load_names contents)

/-- A box in `xyxy` corner format: `(x1, y1, x2, y2)`. -/
abbrev Box := Rat × Rat × Rat × Rat

/-- One per-image prediction object as accessed by the code:
`pred['boxes']`, `pred['scores']`, `pred['labels']`. -/
structure PredData where
  boxes : List Box
  scores : List Rat
  labels : List Int
deriving Repr, DecidableEq

/-- Modelled from the spec: the prediction object comes from the external
pretrained model (`hubconf.yolov5s`, not under `src/`); the spec describes it
as "for one image, a variable-length list of axis-aligned boxes (four
coordinates), each with a confidence score and an integer class label", so
`len(pred)` is the number of detections it holds. -/
def PredData.len (p : PredData) : Nat := p.boxes.length

/-- A `detections` entry: `None` or a prediction object. -/
abbrev Pred := Option PredData

/-- The fields of `args` that `overlay_boxes` reads. -/
structure Args where
  output_dir : String
  names : List String
  colors : List (Nat × Nat × Nat)
  save_txt : Bool
  save_img : Bool
deriving Repr, DecidableEq

/-- Python exceptions that `overlay_boxes` can raise. -/
inductive PyErr : Type where
  /-- Python `NameError`/`UnboundLocalError`: a local read before any assignment. -/
  | unboundLocal
  /-- Python `IndexError`: list index out of range. -/
  | indexError
  /-- Python `ZeroDivisionError`: `%` by zero. -/
  | zeroDivision
deriving Repr, DecidableEq

/-- A filesystem effect performed by `overlay_boxes`:
`open(f'{txt_path}.txt', 'a')` followed by one `f.write(line)`, or
`cv2.imwrite(str(save_path), img)`. -/
inductive FSEvent : Type where
  | appendTxt (path : String) (line : List Rat)
  | writeImg (path : String)
deriving Repr, DecidableEq

/-- Python list indexing `l[i]`: negative indices count from the end;
`none` is an `IndexError`. -/
def pyGet {α : Type} (l : List α) (i : Int) : Option α :=
  if 0 ≤ i then l.get? i.toNat
  else if i.natAbs ≤ l.length then l.get? (l.length - i.natAbs)
  else none

/-- PyTorch `Tensor.round()` on one coordinate: round to nearest, ties to even
(IEEE/PyTorch rounding). -/
def roundHalfEven (q : Rat) : Int :=
  let f := q.floor
  let r := q - (f : Rat)
  if r < 1 / 2 then f
  else if 1 / 2 < r then f + 1
  else if f % 2 = 0 then f else f + 1

/-- The rounding `pred['boxes'].round()` on one box. -/
def roundBox (b : Box) : Box :=
  ((roundHalfEven b.1 : Rat), (roundHalfEven b.2.1 : Rat),
   (roundHalfEven b.2.2.1 : Rat), (roundHalfEven b.2.2.2 : Rat))

/-- Library call `torchvision.ops.box_convert(xyxy, in_fmt="xyxy", out_fmt="cxcywh")`
(external library call; its documented semantics: the center is the midpoint
of the two corners and width/height are the corner differences). -/
def box_convert_xyxy_cxcywh (b : Box) : Box :=
  ((b.1 + b.2.2.1) / 2, (b.2.1 + b.2.2.2) / 2, b.2.2.1 - b.1, b.2.2.2 - b.2.1)

/-- The five numbers of one written label line,
`('%g ' * 5 + '\n') % (cls_name, *cxcywh)`: the class id followed by the
converted `cxcywh` coordinates. -/
def txtLine (cls : Int) (xyxy : Box) : List Rat :=
  let c := box_convert_xyxy_cxcywh xyxy
  [(cls : Rat), c.1, c.2.1, c.2.2.1, c.2.2.2]

/-- Python `str.split(sep)` on a character list (accumulator holds the
current segment reversed). -/
def splitAux (sep : Char) : List Char → List Char → List String
  | [], acc => [String.mk acc.reverse]
  | c :: rest, acc =>
    if c = sep then String.mk acc.reverse :: splitAux sep rest []
    else splitAux sep rest (c :: acc)

/-- The non-empty `/`-separated components of a path, as `pathlib` keeps
them. -/
def pathComponents (p : String) : List String :=
  (splitAux '/' p.data []).filter (fun s => !(s == ""))

/-- Python `pathlib.Path(p).name`: the final path component. -/
def pathName (p : String) : String :=
  ((pathComponents p).getLast?).getD ""

/-- Python `str.rfind('.')` on a character list: index of the last dot. -/
def pyRFindDot (l : List Char) : Option Nat :=
  match l.reverse.findIdx? (fun c => c = '.') with
  | none => none
  | some j => some (l.length - 1 - j)

/-- Python `pathlib.Path(p).stem`: the final component without its suffix (the
suffix starts at the last dot when that dot is neither the first nor the
last character of the name). -/
def pathStem (p : String) : String :=
  let nm := pathName p
  match pyRFindDot nm.data with
  | none => nm
  | some i =>
    if 0 < i ∧ i < nm.data.length - 1 then String.mk (nm.data.take i) else nm

/-- Python `Path(dir).joinpath(nm)` rendered with `str`. -/
def joinpath (dir nm : String) : String := dir ++ "/" ++ nm

/-- The index `int(cls_name) % len(args.colors)` (Python `%` on integers is `Int.emod`,
non-negative for a positive modulus). -/
def colorIndex (cls : Int) (numColors : Nat) : Int := cls % (numColors : Int)

/-- Python `zip(boxes, scores, labels)`: truncates to the shortest input. -/
def zip3 {α β γ : Type} (a : List α) (b : List β) (c : List γ) :
    List (α × β × γ) :=
  a.zip (b.zip c)

/-- The body of `for xyxy, conf, cls_name in zip(...)` for one detection:
when `save_txt`, convert the box and append one line to `txt_path.txt`;
when `save_img`, build the label string (`args.names[int(cls_name)]`, which
can raise `IndexError`) and draw the box with color
`args.colors[int(cls_name) % len(args.colors)]` (raises `ZeroDivisionError`
when `colors` is empty); drawing itself only mutates the in-memory image. -/
def writeStep (args : Args) (txt_path : String) (xyxy : Box) (cls : Int) :
    List FSEvent × Option PyErr :=
  let txtEvents :=
    if args.save_txt then
      [FSEvent.appendTxt (txt_path ++ ".txt") (txtLine cls xyxy)]
    else []
  if args.save_img then
    match pyGet args.names cls with
    | none => (txtEvents, some PyErr.indexError)
    | some _nm =>
      if args.colors.length = 0 then (txtEvents, some PyErr.zeroDivision)
      else
        match pyGet args.colors (colorIndex cls args.colors.length) with
        | none => (txtEvents, some PyErr.indexError)
        | some _color => (txtEvents, none)
  else (txtEvents, none)

/-- The write loop over the zipped detections; an exception aborts the loop
but the filesystem events already performed remain. -/
def writeLoop (args : Args) (txt_path : String) :
    List (Box × Rat × Int) → List FSEvent × Option PyErr
  | [] => ([], none)
  | (xyxy, _conf, cls) :: rest =>
    match writeStep args txt_path xyxy cls with
    | (evs, some e) => (evs, some e)
    | (evs, none) =>
      match writeLoop args txt_path rest with
      | (evs2, err) => (evs ++ evs2, err)

/-- Insert into a sorted list of labels. -/
def insertSorted (x : Int) : List Int → List Int
  | [] => [x]
  | y :: ys => if x ≤ y then x :: y :: ys else y :: insertSorted x ys

/-- Insertion sort on labels. -/
def sortInts (l : List Int) : List Int := l.foldr insertSorted []

/-- Tensor method `labels.unique()`: the distinct label values in increasing order
(torch.unique returns sorted unique values). -/
def uniqueSorted (l : List Int) : List Int := sortInts l.dedup

/-- The loop `for c in labels.unique()`, returning the `(count, name)` pair
of every summary piece: `n = (labels == c).sum()` and
`args.names[int(c)]` (which can raise `IndexError`). -/
def summaryLoop (labels : List Int) (names : List String) :
    List Int → Except PyErr (List (Nat × String))
  | [] => .ok []
  | c :: cs =>
    match pyGet names c with
    | none => .error PyErr.indexError
    | some nm =>
      match summaryLoop labels names cs with
      | .error e => .error e
      | .ok rest => .ok ((labels.count c, nm) :: rest)

/-- One summary piece rendered as `'%g %ss, ' % (n, name)`. -/
def renderEntry (e : Nat × String) : String :=
  toString e.1 ++ " " ++ e.2 ++ "s, "

/-- The concatenation of the rendered summary pieces. -/
def renderSummary : List (Nat × String) → String
  | [] => ""
  | e :: rest => renderEntry e ++ renderSummary rest

/-- The value of `det_logs` accumulated by the per-class loop. -/
def det_logs (labels : List Int) (names : List String) : Except PyErr String :=
  match summaryLoop labels names (uniqueSorted labels) with
  | .error e => .error e
  | .ok entries => .ok (renderSummary entries)

/-- The return value `(boxes.tolist(), scores.tolist(), labels.tolist())`. -/
abbrev Triple := List Box × List Rat × List Int

/-- The loop-carried state of `overlay_boxes`: filesystem events so far,
printed lines so far, and the current binding of the `boxes, scores, labels`
locals (`none` = never assigned). -/
structure LoopState where
  events : List FSEvent
  prints : List String
  bound : Option Triple
deriving Repr, DecidableEq

/-- The assignment `boxes, scores, labels = pred['boxes'].round(), pred['scores'],
pred['labels']`. -/
def predTriple (p : PredData) : Triple :=
  (p.boxes.map roundBox, p.scores, p.labels)

/-- The tail of one loop iteration: print `det_logs + 'Done. (...s)'` and,
when `save_img`, write the annotated image to `save_path`. -/
def finishIter (args : Args) (save_path ts : String) (st : LoopState)
    (logs : String) : LoopState :=
  let st' := { st with prints := st.prints ++ [logs ++ "Done. (" ++ ts ++ "s)"] }
  if args.save_img then
    { st' with events := st'.events ++ [FSEvent.writeImg save_path] }
  else st'

/-- One iteration of `for i, pred in enumerate(detections)`.  The second
component is the exception that aborted the iteration, if any. -/
def processPred (args : Args) (path ts : String) (st : LoopState)
    (pred : Pred) : LoopState × Option PyErr :=
  let save_path := joinpath args.output_dir (pathName path)
  let txt_path := joinpath args.output_dir (pathStem path)
  match pred with
  | none => (finishIter args save_path ts st "", none)
  | some p =>
    if 0 < p.len then
      let bound := some (predTriple p)
      match det_logs p.labels args.names with
      | .error e => ({ st with bound := bound }, some e)
      | .ok logs =>
        match writeLoop args txt_path
            (zip3 (p.boxes.map roundBox) p.scores p.labels) with
        | (evs, some e) =>
          ({ st with events := st.events ++ evs, bound := bound }, some e)
        | (evs, none) =>
          (finishIter args save_path ts
            { st with events := st.events ++ evs, bound := bound } logs, none)
    else (finishIter args save_path ts st "", none)

/-- The loop of `overlay_boxes` over all predictions. -/
def overlayLoop (args : Args) (path ts : String) :
    List Pred → LoopState → LoopState × Option PyErr
  | [], st => (st, none)
  | pred :: rest, st =>
    match processPred args path ts st pred with
    | (st2, some e) => (st2, some e)
    | (st2, none) => overlayLoop args path ts rest st2

/-- Function `overlay_boxes(detections, path, time_consume, args)`: returns the
filesystem events in order, the printed lines in order, and either the value
of `return (boxes.tolist(), scores.tolist(), labels.tolist())` or the raised
exception (`unboundLocal` when the `return` reads never-assigned locals).
`ts` is the preformatted elapsed time inserted into the printed line. -/
def overlay_boxes (detections : List Pred) (path ts : String) (args : Args) :
    List FSEvent × List String × Except PyErr Triple :=
  match overlayLoop args path ts detections ⟨[], [], none⟩ with
  | (st, some e) => (st.events, st.prints, .error e)
  | (st, none) =>
    match st.bound with
    | none => (st.events, st.prints, .error PyErr.unboundLocal)
    | some t => (st.events, st.prints, .ok t)

/-- Interpret one event on a map from path to text-file contents (list of
lines): `open(path, 'a')` + `write` appends one line at the end of that file
and touches nothing else; `cv2.imwrite` touches no text file. -/
def applyEvent (fs : String → List (List Rat)) :
    FSEvent → String → List (List Rat)
  | FSEvent.appendTxt p line => fun q => if q = p then fs q ++ [line] else fs q
  | FSEvent.writeImg _ => fs

/-- Run a list of events over an initial text-file map. -/
def runEvents : List FSEvent → (String → List (List Rat)) → String →
    List (List Rat)
  | [], fs => fs
  | e :: es, fs => runEvents es (applyEvent fs e)

/-- The lines a list of events appends to the text file `q`, in order. -/
def txtAppends (q : String) : List FSEvent → List (List Rat)
  | [] => []
  | FSEvent.appendTxt p line :: es =>
    (if q = p then [line] else []) ++ txtAppends q es
  | FSEvent.writeImg _ :: es => txtAppends q es

/-- Is this event a text append? -/
def isTxtAppend : FSEvent → Bool
  | FSEvent.appendTxt _ _ => true
  | FSEvent.writeImg _ => false

/-- Is this event an image write? -/
def isImgWrite : FSEvent → Bool
  | FSEvent.appendTxt _ _ => false
  | FSEvent.writeImg _ => true

/-- Did an `Except` computation return normally? -/
def isOkB {ε α : Type} : Except ε α → Bool
  | .ok _ => true
  | .error _ => false

/-- The zipped detections the write loop of one iteration runs over
(empty when the enclosing branch is not taken). -/
def predDets : Pred → List (Box × Rat × Int)
  | none => []
  | some p =>
    if 0 < p.len then zip3 (p.boxes.map roundBox) p.scores p.labels else []

/-- The number of boxes of a prediction (`0` for `None`). -/
def numBoxes : Pred → Nat
  | none => 0
  | some p => p.len

/-- The text line one zipped detection produces. -/
def lineOf (d : Box × Rat × Int) : List Rat := txtLine d.2.2 d.1

/-- The filesystem events one loop iteration performs when it raises no
exception. -/
def predEvents (args : Args) (path : String) (pred : Pred) : List FSEvent :=
  (if args.save_txt then
      (predDets pred).map
        (fun d => FSEvent.appendTxt
          (joinpath args.output_dir (pathStem path) ++ ".txt") (lineOf d))
    else []) ++
  (if args.save_img then
      [FSEvent.writeImg (joinpath args.output_dir (pathName path))]
    else [])

/-- The binding the `boxes, scores, labels` locals receive from one
prediction (`none` when the branch is not entered). -/
def boundOf : Pred → Option Triple
  | none => none
  | some p => if 0 < p.len then some (predTriple p) else none

/-- The non-`None`, non-empty predictions of a detections list, in order. -/
def nonEmptyPreds (dets : List Pred) : List PredData :=
  dets.filterMap
    (fun pr =>
      match pr with
      | none => none
      | some p => if 0 < p.len then some p else none)

/-- The summary string one iteration accumulates into `det_logs` (the empty
string when the non-empty branch is not entered). -/
def logsOf (names : List String) : Pred → Except PyErr String
  | none => .ok ""
  | some p => if 0 < p.len then det_logs p.labels names else .ok ""

/-- The binding of `boxes, scores, labels` left by a list of predictions
(`none` when every prediction leaves the locals unassigned). -/
def lastBound : List Pred → Option Triple
  | [] => none
  | pred :: rest =>
    match lastBound rest with
    | some t => some t
    | none => boundOf pred

/-! ## Properties -/

theorem loadLoop_eq (ls : List String) :
    ∀ acc, loadLoop ls acc = acc ++ ls.map pyStrip := by
  induction ls with
  | nil => intro acc; simp [loadLoop]
  | cons l ls ih => intro acc; simp [loadLoop, ih]

theorem load_names_eq_map (contents : String) :
    load_names contents = (fileLines contents).map pyStrip := by
  simp [load_names, loadLoop_eq]

/-- C1, counterexample.  The claim says `load_names` returns one entry per
NON-EMPTY line of the file.  On the file `"a\n\nb"` (three lines, the middle
one empty) the loop appends an entry for the empty line as well, so the result
has three entries while only two lines are non-empty. -/
theorem C1_load_names_counterexample :
    ¬ ((load_names "a\n\nb").length =
        ((fileLines "a\n\nb").filter (fun l => !(l == ""))).length) := by
  decide

/-- C1, amended.  `load_names` returns one entry per line of the file (empty
lines included, each yielding an empty-string entry), in file order; each
entry is its line stripped of surrounding whitespace. -/
theorem C1_load_names_entry_per_line (contents : String) :
    (load_names contents).length = (fileLines contents).length ∧
    ∀ i (h1 : i < (load_names contents).length)
      (h2 : i < (fileLines contents).length),
      (load_names contents).get ⟨i, h1⟩ =
        pyStrip ((fileLines contents).get ⟨i, h2⟩) := by
  refine ⟨by simp [load_names_eq_map], ?_⟩
  intro i h1 h2
  simp [load_names_eq_map]

/-- Witness for C1's amended theorem at the concrete file `"a\n b \n"`. -/
theorem C1_load_names_entry_per_line_witness :
    (load_names "a\n b \n").length = (fileLines "a\n b \n").length ∧
    (load_names "a\n b \n").get ⟨1, by decide⟩ =
      pyStrip ((fileLines "a\n b \n").get ⟨1, by decide⟩) :=
  ⟨(C1_load_names_entry_per_line "a\n b \n").1,
   (C1_load_names_entry_per_line "a\n b \n").2 1 (by decide) (by decide)⟩

/-- C7.  `load_names` wraps no error handling around the file-open: an error
raised by the underlying open/read is returned exactly as produced, with no
catching, retry, recovery, or translation, and the call returns normally if
and only if the file could be opened and read. -/
theorem C7_load_names_error_propagation :
    (∀ e : String, load_names_io (.error e) = .error e) ∧
    (∀ file : Except String String,
      (∃ v, load_names_io file = .ok v) ↔ (∃ contents, file = .ok contents)) := by
  refine ⟨fun e => rfl, fun file => ?_⟩
  cases file with
  | error e => simp [load_names_io]
  | ok c => simp [load_names_io]

theorem writeStep_events (args : Args) (tp : String) (xyxy : Box) (cls : Int) :
    (writeStep args tp xyxy cls).1 =
      if args.save_txt then
        [FSEvent.appendTxt (tp ++ ".txt") (txtLine cls xyxy)]
      else [] := by
  unfold writeStep
  cases hsi : args.save_img <;> simp
  · cases pyGet args.names cls <;> simp
    split
    · simp
    · cases pyGet args.colors (colorIndex cls args.colors.length) <;> simp

theorem writeLoop_ok_events (args : Args) (tp : String) (l : List (Box × Rat × Int))
    (hok : (writeLoop args tp l).2 = none) :
    (writeLoop args tp l).1 =
      if args.save_txt then
        l.map (fun d => FSEvent.appendTxt (tp ++ ".txt") (lineOf d))
      else [] := by
  induction l with
  | nil => cases hst : args.save_txt <;> simp [writeLoop, hst]
  | cons d rest ih =>
    obtain ⟨xyxy, conf, cls⟩ := d
    unfold writeLoop at hok ⊢
    rcases hw : writeStep args tp xyxy cls with ⟨evs, err⟩
    cases err with
    | some e => rw [hw] at hok; simp at hok
    | none =>
      rw [hw] at hok
      simp only at hok ⊢
      rcases hr : writeLoop args tp rest with ⟨evs2, err2⟩
      rw [hr] at hok
      simp only at hok
      have hevs : evs = (writeStep args tp xyxy cls).1 := by rw [hw]
      have h2 : evs2 = (writeLoop args tp rest).1 := by rw [hr]
      have h3 : (writeLoop args tp rest).2 = none := by rw [hr]; exact hok
      subst hevs
      rw [writeStep_events]
      rw [h2, ih h3]
      cases hst : args.save_txt <;> simp [hst, lineOf]

theorem writeLoop_events_are_appends (args : Args) (tp : String)
    (l : List (Box × Rat × Int)) :
    ∀ ev ∈ (writeLoop args tp l).1,
      isTxtAppend ev = true ∧ args.save_txt = true := by
  induction l with
  | nil => intro ev hev; simp [writeLoop] at hev
  | cons d rest ih =>
    obtain ⟨xyxy, conf, cls⟩ := d
    intro ev hev
    unfold writeLoop at hev
    rcases hw : writeStep args tp xyxy cls with ⟨evs, err⟩
    rw [hw] at hev
    have hevs : evs = (writeStep args tp xyxy cls).1 := by rw [hw]
    have hstep : ∀ e ∈ evs, isTxtAppend e = true ∧ args.save_txt = true := by
      intro e he
      rw [hevs, writeStep_events] at he
      rcases hst : args.save_txt with _ | _ <;> rw [hst] at he <;> simp at he
      rw [he]; exact ⟨rfl, rfl⟩
    cases err with
    | some e => exact hstep ev (by simpa using hev)
    | none =>
      rcases hr : writeLoop args tp rest with ⟨evs2, err2⟩
      rw [hr] at hev
      simp only [List.mem_append] at hev
      rcases hev with hev | hev
      · exact hstep ev hev
      · have : ev ∈ (writeLoop args tp rest).1 := by rw [hr]; exact hev
        exact ih ev this

theorem finishIter_events (args : Args) (sp ts : String) (st : LoopState)
    (logs : String) :
    (finishIter args sp ts st logs).events =
      st.events ++ (if args.save_img then [FSEvent.writeImg sp] else []) := by
  unfold finishIter
  cases hsi : args.save_img <;> simp [hsi]

theorem finishIter_prints (args : Args) (sp ts : String) (st : LoopState)
    (logs : String) :
    (finishIter args sp ts st logs).prints =
      st.prints ++ [logs ++ "Done. (" ++ ts ++ "s)"] := by
  unfold finishIter
  cases hsi : args.save_img <;> simp [hsi]

theorem finishIter_bound (args : Args) (sp ts : String) (st : LoopState)
    (logs : String) :
    (finishIter args sp ts st logs).bound = st.bound := by
  unfold finishIter
  cases hsi : args.save_img <;> simp [hsi]

theorem processPred_bound (args : Args) (path ts : String) (st : LoopState)
    (pred : Pred) :
    (processPred args path ts st pred).1.bound =
      match boundOf pred with
      | none => st.bound
      | some t => some t := by
  unfold processPred
  cases pred with
  | none => simp [boundOf, finishIter_bound]
  | some p =>
    by_cases hlen : 0 < p.len
    · simp only [hlen, if_true, boundOf]
      cases hdl : det_logs p.labels args.names with
      | error e => simp
      | ok logs =>
        simp only
        rcases hw : writeLoop args (joinpath args.output_dir (pathStem path))
            (zip3 (p.boxes.map roundBox) p.scores p.labels) with ⟨evs, err⟩
        cases err <;> simp [finishIter_bound]
    · simp [hlen, boundOf, finishIter_bound]

theorem processPred_ok_events (args : Args) (path ts : String) (st : LoopState)
    (pred : Pred) (st2 : LoopState)
    (h : processPred args path ts st pred = (st2, none)) :
    st2.events = st.events ++ predEvents args path pred := by
  unfold processPred at h
  cases pred with
  | none =>
    simp only at h
    have := congrArg Prod.fst h
    simp only at this
    rw [← this, finishIter_events]
    simp [predEvents, predDets]
  | some p =>
    by_cases hlen : 0 < p.len
    · simp only [hlen, if_true] at h
      cases hdl : det_logs p.labels args.names with
      | error e => rw [hdl] at h; simp at h
      | ok logs =>
        rw [hdl] at h
        simp only at h
        rcases hw : writeLoop args (joinpath args.output_dir (pathStem path))
            (zip3 (p.boxes.map roundBox) p.scores p.labels) with ⟨evs, err⟩
        rw [hw] at h
        cases err with
        | some e => simp at h
        | none =>
          simp only at h
          have := congrArg Prod.fst h
          simp only at this
          rw [← this, finishIter_events]
          have hevs : evs = (writeLoop args (joinpath args.output_dir (pathStem path))
              (zip3 (p.boxes.map roundBox) p.scores p.labels)).1 := by rw [hw]
          have hok : (writeLoop args (joinpath args.output_dir (pathStem path))
              (zip3 (p.boxes.map roundBox) p.scores p.labels)).2 = none := by
            rw [hw]
          simp only [hevs, writeLoop_ok_events _ _ _ hok, predEvents, predDets,
            hlen, if_true, List.append_assoc]
    · simp only [hlen, if_false] at h
      have := congrArg Prod.fst h
      simp only at this
      rw [← this, finishIter_events]
      simp [predEvents, predDets, hlen]

theorem processPred_ok_prints (args : Args) (path ts : String) (st : LoopState)
    (pred : Pred) (st2 : LoopState)
    (h : processPred args path ts st pred = (st2, none)) :
    ∃ logs, logsOf args.names pred = .ok logs ∧
      st2.prints = st.prints ++ [logs ++ "Done. (" ++ ts ++ "s)"] := by
  unfold processPred at h
  cases pred with
  | none =>
    refine ⟨"", rfl, ?_⟩
    have := congrArg Prod.fst h
    simp only at this
    rw [← this, finishIter_prints]
  | some p =>
    by_cases hlen : 0 < p.len
    · simp only [hlen, if_true] at h
      cases hdl : det_logs p.labels args.names with
      | error e => rw [hdl] at h; simp at h
      | ok logs =>
        rw [hdl] at h
        simp only at h
        rcases hw : writeLoop args (joinpath args.output_dir (pathStem path))
            (zip3 (p.boxes.map roundBox) p.scores p.labels) with ⟨evs, err⟩
        rw [hw] at h
        cases err with
        | some e => simp at h
        | none =>
          refine ⟨logs, by simp [logsOf, hlen, hdl], ?_⟩
          have := congrArg Prod.fst h
          simp only at this
          rw [← this, finishIter_prints]
    · refine ⟨"", by simp [logsOf, hlen], ?_⟩
      simp only [hlen, if_false] at h
      have := congrArg Prod.fst h
      simp only at this
      rw [← this, finishIter_prints]

theorem processPred_empty (args : Args) (path ts : String) (st : LoopState)
    (pred : Pred) (hb : boundOf pred = none) :
    processPred args path ts st pred =
      (finishIter args (joinpath args.output_dir (pathName path)) ts st "",
        none) := by
  unfold processPred
  cases pred with
  | none => simp
  | some p =>
    by_cases hlen : 0 < p.len
    · simp [boundOf, hlen] at hb
    · simp [hlen]

theorem processPred_events_flags (args : Args) (path ts : String)
    (st : LoopState) (pred : Pred) :
    ∃ Δ, (processPred args path ts st pred).1.events = st.events ++ Δ ∧
      ∀ ev ∈ Δ, (isTxtAppend ev = true → args.save_txt = true) ∧
        (isImgWrite ev = true → args.save_img = true) := by
  have himg : ∀ ev ∈ (if args.save_img then
      [FSEvent.writeImg (joinpath args.output_dir (pathName path))] else []),
      (isTxtAppend ev = true → args.save_txt = true) ∧
        (isImgWrite ev = true → args.save_img = true) := by
    intro ev hev
    cases hsi : args.save_img <;> rw [hsi] at hev <;> simp at hev
    rw [hev]
    exact ⟨fun hc => by simp [isTxtAppend] at hc, fun _ => rfl⟩
  unfold processPred
  cases pred with
  | none =>
    refine ⟨if args.save_img then
      [FSEvent.writeImg (joinpath args.output_dir (pathName path))] else [],
      ?_, himg⟩
    simp only
    rw [finishIter_events]
  | some p =>
    by_cases hlen : 0 < p.len
    · simp only [hlen, if_true]
      cases hdl : det_logs p.labels args.names with
      | error e => exact ⟨[], by simp, by simp⟩
      | ok logs =>
        simp only
        rcases hw : writeLoop args (joinpath args.output_dir (pathStem path))
            (zip3 (p.boxes.map roundBox) p.scores p.labels) with ⟨evs, err⟩
        have hevs : ∀ ev ∈ evs,
            (isTxtAppend ev = true → args.save_txt = true) ∧
              (isImgWrite ev = true → args.save_img = true) := by
          intro ev hev
          have : ev ∈ (writeLoop args (joinpath args.output_dir (pathStem path))
              (zip3 (p.boxes.map roundBox) p.scores p.labels)).1 := by
            rw [hw]; exact hev
          have := writeLoop_events_are_appends _ _ _ ev this
          refine ⟨fun _ => this.2, fun hc => ?_⟩
          cases ev with
          | appendTxt q line => simp [isImgWrite] at hc
          | writeImg q => simp [isTxtAppend] at this
        cases err with
        | some e => exact ⟨evs, by simp, hevs⟩
        | none =>
          refine ⟨evs ++ (if args.save_img then
            [FSEvent.writeImg (joinpath args.output_dir (pathName path))]
            else []), ?_, ?_⟩
          · simp only
            rw [finishIter_events]
            simp [List.append_assoc]
          · intro ev hev
            rcases List.mem_append.mp hev with hev | hev
            · exact hevs ev hev
            · exact himg ev hev
    · refine ⟨if args.save_img then
        [FSEvent.writeImg (joinpath args.output_dir (pathName path))] else [],
        ?_, himg⟩
      simp only [hlen, if_false]
      rw [finishIter_events]

theorem overlayLoop_cons (args : Args) (path ts : String) (pred : Pred)
    (rest : List Pred) (st : LoopState) :
    overlayLoop args path ts (pred :: rest) st =
      match processPred args path ts st pred with
      | (st2, some e) => (st2, some e)
      | (st2, none) => overlayLoop args path ts rest st2 := rfl

theorem overlayLoop_ok_events (args : Args) (path ts : String) :
    ∀ (dets : List Pred) (st : LoopState),
      (overlayLoop args path ts dets st).2 = none →
      (overlayLoop args path ts dets st).1.events =
        st.events ++ (dets.map (predEvents args path)).flatten := by
  intro dets
  induction dets with
  | nil => intro st h; simp [overlayLoop]
  | cons pred rest ih =>
    intro st h
    rw [overlayLoop_cons] at h ⊢
    rcases hp : processPred args path ts st pred with ⟨st2, err⟩
    simp only [hp] at h ⊢
    cases err with
    | some e => simp at h
    | none =>
      simp only at h ⊢
      rw [ih st2 h, processPred_ok_events args path ts st pred st2 hp]
      simp [List.append_assoc]

theorem overlayLoop_events_flags (args : Args) (path ts : String) :
    ∀ (dets : List Pred) (st : LoopState),
      ∃ Δ, (overlayLoop args path ts dets st).1.events = st.events ++ Δ ∧
        ∀ ev ∈ Δ, (isTxtAppend ev = true → args.save_txt = true) ∧
          (isImgWrite ev = true → args.save_img = true) := by
  intro dets
  induction dets with
  | nil => intro st; exact ⟨[], by simp [overlayLoop], by simp⟩
  | cons pred rest ih =>
    intro st
    rw [overlayLoop_cons]
    rcases hp : processPred args path ts st pred with ⟨st2, err⟩
    obtain ⟨Δ1, hΔ1, hΔ1flags⟩ := processPred_events_flags args path ts st pred
    rw [hp] at hΔ1
    cases err with
    | some e => exact ⟨Δ1, hΔ1, hΔ1flags⟩
    | none =>
      obtain ⟨Δ2, hΔ2, hΔ2flags⟩ := ih st2
      refine ⟨Δ1 ++ Δ2, ?_, ?_⟩
      · simp only
        rw [hΔ2, hΔ1, List.append_assoc]
      · intro ev hev
        rcases List.mem_append.mp hev with hev | hev
        · exact hΔ1flags ev hev
        · exact hΔ2flags ev hev

theorem overlayLoop_ok_bound (args : Args) (path ts : String) :
    ∀ (dets : List Pred) (st : LoopState),
      (overlayLoop args path ts dets st).2 = none →
      (overlayLoop args path ts dets st).1.bound =
        match lastBound dets with
        | none => st.bound
        | some t => some t := by
  intro dets
  induction dets with
  | nil => intro st h; simp [overlayLoop, lastBound]
  | cons pred rest ih =>
    intro st h
    rw [overlayLoop_cons] at h ⊢
    rcases hp : processPred args path ts st pred with ⟨st2, err⟩
    simp only [hp] at h ⊢
    cases err with
    | some e => simp at h
    | none =>
      simp only at h ⊢
      rw [ih st2 h]
      have hb : st2.bound =
          match boundOf pred with
          | none => st.bound
          | some t => some t := by
        have := processPred_bound args path ts st pred
        rw [hp] at this
        exact this
      have hcons : lastBound (pred :: rest) =
          match lastBound rest with
          | some t => some t
          | none => boundOf pred := rfl
      rw [hcons]
      cases hlb : lastBound rest with
      | some t => simp
      | none => simp [hb]

theorem overlayLoop_all_empty (args : Args) (path ts : String) :
    ∀ (dets : List Pred) (st : LoopState),
      (∀ pred ∈ dets, boundOf pred = none) →
      (overlayLoop args path ts dets st).2 = none ∧
        (overlayLoop args path ts dets st).1.bound = st.bound := by
  intro dets
  induction dets with
  | nil => intro st _; simp [overlayLoop]
  | cons pred rest ih =>
    intro st hall
    rw [overlayLoop_cons]
    rw [processPred_empty args path ts st pred (hall pred (by simp))]
    simp only
    have := ih (finishIter args (joinpath args.output_dir (pathName path)) ts st "")
      (fun q hq => hall q (by simp [hq]))
    refine ⟨this.1, ?_⟩
    rw [this.2, finishIter_bound]

theorem overlay_boxes_events (dets : List Pred) (path ts : String)
    (args : Args) :
    (overlay_boxes dets path ts args).1 =
      (overlayLoop args path ts dets ⟨[], [], none⟩).1.events := by
  unfold overlay_boxes
  rcases h : overlayLoop args path ts dets ⟨[], [], none⟩ with ⟨st, err⟩
  simp only [h]
  cases err with
  | some e => simp
  | none => cases hb : st.bound <;> simp [hb]

theorem overlay_boxes_prints (dets : List Pred) (path ts : String)
    (args : Args) :
    (overlay_boxes dets path ts args).2.1 =
      (overlayLoop args path ts dets ⟨[], [], none⟩).1.prints := by
  unfold overlay_boxes
  rcases h : overlayLoop args path ts dets ⟨[], [], none⟩ with ⟨st, err⟩
  simp only [h]
  cases err with
  | some e => simp
  | none => cases hb : st.bound <;> simp [hb]

theorem overlay_boxes_ok (dets : List Pred) (path ts : String) (args : Args)
    (t : Triple) :
    (overlay_boxes dets path ts args).2.2 = .ok t ↔
      (overlayLoop args path ts dets ⟨[], [], none⟩).2 = none ∧
        (overlayLoop args path ts dets ⟨[], [], none⟩).1.bound = some t := by
  unfold overlay_boxes
  rcases h : overlayLoop args path ts dets ⟨[], [], none⟩ with ⟨st, err⟩
  simp only [h]
  cases err with
  | some e => simp
  | none =>
    cases hb : st.bound with
    | none => simp [hb]
    | some u => simp [hb]

theorem overlay_boxes_isOk (dets : List Pred) (path ts : String) (args : Args)
    (h : isOkB (overlay_boxes dets path ts args).2.2 = true) :
    (overlayLoop args path ts dets ⟨[], [], none⟩).2 = none := by
  revert h
  unfold overlay_boxes
  rcases h : overlayLoop args path ts dets ⟨[], [], none⟩ with ⟨st, err⟩
  simp only [h]
  cases err with
  | some e => simp [isOkB]
  | none => intro _; rfl

theorem txtAppends_append (q : String) (a b : List FSEvent) :
    txtAppends q (a ++ b) = txtAppends q a ++ txtAppends q b := by
  induction a with
  | nil => simp [txtAppends]
  | cons ev a ih =>
    cases ev with
    | appendTxt p line => simp [txtAppends, ih, List.append_assoc]
    | writeImg p => simp [txtAppends, ih]

theorem txtAppends_map_self {α : Type} (q : String) (f : α → List Rat)
    (l : List α) :
    txtAppends q (l.map (fun d => FSEvent.appendTxt q (f d))) = l.map f := by
  induction l with
  | nil => simp [txtAppends]
  | cons d l ih => simp [txtAppends, ih]

theorem txtAppends_predEvents (args : Args) (path : String) (pred : Pred)
    (hs : args.save_txt = true) :
    txtAppends (joinpath args.output_dir (pathStem path) ++ ".txt")
      (predEvents args path pred) = (predDets pred).map lineOf := by
  unfold predEvents
  rw [hs, if_pos rfl, txtAppends_append, txtAppends_map_self]
  cases hsi : args.save_img <;> simp [txtAppends]

theorem countP_txt_predEvents (args : Args) (path : String) (pred : Pred) :
    (predEvents args path pred).countP isTxtAppend =
      if args.save_txt then (predDets pred).length else 0 := by
  unfold predEvents
  rw [List.countP_append]
  have h1 : ∀ l : List FSEvent,
      (∀ ev ∈ l, isTxtAppend ev = false) → l.countP isTxtAppend = 0 := by
    intro l hl
    rw [List.countP_eq_zero]
    intro ev hev
    simp [hl ev hev]
  have h3 : (if args.save_img then
      [FSEvent.writeImg (joinpath args.output_dir (pathName path))]
      else []).countP isTxtAppend = 0 := by
    apply h1
    intro ev hev
    cases hsi : args.save_img <;> rw [hsi] at hev <;> simp at hev
    rw [hev]; rfl
  rw [h3, Nat.add_zero]
  cases hst : args.save_txt with
  | false => simp
  | true =>
    simp only [if_true]
    have h2 : (List.countP isTxtAppend
        ((predDets pred).map (fun d => FSEvent.appendTxt
          (joinpath args.output_dir (pathStem path) ++ ".txt") (lineOf d)))) =
        ((predDets pred).map (fun d => FSEvent.appendTxt
          (joinpath args.output_dir (pathStem path) ++ ".txt")
          (lineOf d))).length := by
      rw [List.countP_eq_length]
      intro ev hev
      rcases List.mem_map.mp hev with ⟨d, _, rfl⟩
      rfl
    rw [h2, List.length_map]

theorem filter_img_predEvents (args : Args) (path : String) (pred : Pred) :
    (predEvents args path pred).filter isImgWrite =
      if args.save_img then
        [FSEvent.writeImg (joinpath args.output_dir (pathName path))]
      else [] := by
  unfold predEvents
  rw [List.filter_append]
  have h1 : (if args.save_txt then
      (predDets pred).map (fun d => FSEvent.appendTxt
        (joinpath args.output_dir (pathStem path) ++ ".txt") (lineOf d))
      else []).filter isImgWrite = [] := by
    rw [List.filter_eq_nil_iff]
    intro ev hev
    cases hst : args.save_txt <;> rw [hst] at hev
    · simp at hev
    · rcases List.mem_map.mp hev with ⟨d, _, rfl⟩
      simp [isImgWrite]
  rw [h1, List.nil_append]
  cases hsi : args.save_img <;> simp [isImgWrite]

theorem runEvents_txtAppends (evs : List FSEvent) :
    ∀ (fs : String → List (List Rat)) (q : String),
      runEvents evs fs q = fs q ++ txtAppends q evs := by
  induction evs with
  | nil => intro fs q; simp [runEvents, txtAppends]
  | cons ev evs ih =>
    intro fs q
    cases ev with
    | appendTxt p line =>
      rw [runEvents, ih]
      have ht : txtAppends q (FSEvent.appendTxt p line :: evs) =
          (if q = p then [line] else []) ++ txtAppends q evs := rfl
      rw [ht]
      unfold applyEvent
      by_cases hq : q = p <;> simp [hq, List.append_assoc]
    | writeImg p =>
      rw [runEvents, ih]
      rfl

theorem predDets_length (p : PredData)
    (h1 : p.scores.length = p.boxes.length)
    (h2 : p.labels.length = p.boxes.length) :
    (predDets (some p)).length = p.len := by
  simp only [predDets]
  by_cases hlen : 0 < p.len
  · rw [if_pos hlen]
    unfold zip3
    rw [List.length_zip, List.length_zip, List.length_map, h1, h2]
    simp [PredData.len]
  · rw [if_neg hlen]
    have : p.len = 0 := Nat.eq_zero_of_not_pos hlen
    simp [this]

theorem flatten_countP_txt (args : Args) (path : String) (dets : List Pred)
    (hs : args.save_txt = true)
    (hlen : ∀ p, some p ∈ dets →
      p.scores.length = p.boxes.length ∧ p.labels.length = p.boxes.length) :
    ((dets.map (predEvents args path)).flatten).countP isTxtAppend =
      (dets.map (fun pr => numBoxes pr)).sum := by
  induction dets with
  | nil => simp
  | cons pred rest ih =>
    simp only [List.map_cons, List.flatten_cons, List.countP_append,
      List.sum_cons]
    rw [countP_txt_predEvents, hs, if_pos rfl]
    rw [ih (fun p hp => hlen p (by simp [hp]))]
    congr 1
    cases pred with
    | none => simp [predDets, numBoxes]
    | some p =>
      have := hlen p (by simp)
      rw [predDets_length p this.1 this.2]
      rfl

/-- C2.  When the save-text flag is enabled and `overlay_boxes` returns
normally, it appends exactly one text line per detection: the total number
of append events equals the sum over the predictions of their number of
boxes (each prediction's lists being of equal length). -/
theorem C2_one_line_per_detection (dets : List Pred) (path ts : String)
    (args : Args) (hs : args.save_txt = true)
    (hok : isOkB (overlay_boxes dets path ts args).2.2 = true)
    (hlen : ∀ p, some p ∈ dets →
      p.scores.length = p.boxes.length ∧ p.labels.length = p.boxes.length) :
    ((overlay_boxes dets path ts args).1).countP isTxtAppend =
      (dets.map (fun pr => numBoxes pr)).sum := by
  rw [overlay_boxes_events]
  rw [overlayLoop_ok_events args path ts dets ⟨[], [], none⟩
    (overlay_boxes_isOk dets path ts args hok)]
  simp only [List.nil_append]
  exact flatten_countP_txt args path dets hs hlen

theorem flatten_txtAppends (args : Args) (path : String) (dets : List Pred)
    (hs : args.save_txt = true) :
    txtAppends (joinpath args.output_dir (pathStem path) ++ ".txt")
      ((dets.map (predEvents args path)).flatten) =
      ((dets.map predDets).flatten).map lineOf := by
  induction dets with
  | nil => simp [txtAppends]
  | cons pred rest ih =>
    simp only [List.map_cons, List.flatten_cons, List.map_append]
    rw [txtAppends_append, txtAppends_predEvents args path pred hs, ih]

/-- C3.  Every text line written by `overlay_boxes` (in a normal run with the
save-text flag enabled) is the five numbers: the class id, then the
center-x, center-y, width and height obtained by converting the rounded
`xyxy` box to `cxcywh` (center = midpoint of the corners, width and height =
corner differences), in the units that conversion produces. -/
theorem C3_txt_line_format (dets : List Pred) (path ts : String) (args : Args)
    (hs : args.save_txt = true)
    (hok : isOkB (overlay_boxes dets path ts args).2.2 = true) :
    txtAppends (joinpath args.output_dir (pathStem path) ++ ".txt")
        ((overlay_boxes dets path ts args).1) =
      ((dets.map predDets).flatten).map
        (fun d => [(d.2.2 : Rat), (d.1.1 + d.1.2.2.1) / 2,
          (d.1.2.1 + d.1.2.2.2) / 2, d.1.2.2.1 - d.1.1,
          d.1.2.2.2 - d.1.2.1]) := by
  rw [overlay_boxes_events]
  rw [overlayLoop_ok_events args path ts dets ⟨[], [], none⟩
    (overlay_boxes_isOk dets path ts args hok)]
  simp only [List.nil_append]
  rw [flatten_txtAppends args path dets hs]
  rfl

/-- C9.  When the save-text flag is enabled, the per-detection lines are
written by opening the text file in append mode: any prior contents of every
file are preserved unchanged with the new lines after them, and (in a normal
run) the lines appended to the per-image text file are exactly the detection
lines in detection order. -/
theorem C9_append_mode (dets : List Pred) (path ts : String) (args : Args)
    (hs : args.save_txt = true) :
    (∀ (fs : String → List (List Rat)) (q : String),
      runEvents ((overlay_boxes dets path ts args).1) fs q =
        fs q ++ txtAppends q ((overlay_boxes dets path ts args).1)) ∧
    (isOkB (overlay_boxes dets path ts args).2.2 = true →
      txtAppends (joinpath args.output_dir (pathStem path) ++ ".txt")
          ((overlay_boxes dets path ts args).1) =
        ((dets.map predDets).flatten).map lineOf) := by
  constructor
  · intro fs q
    exact runEvents_txtAppends _ fs q
  · intro hok
    rw [overlay_boxes_events]
    rw [overlayLoop_ok_events args path ts dets ⟨[], [], none⟩
      (overlay_boxes_isOk dets path ts args hok)]
    simp only [List.nil_append]
    exact flatten_txtAppends args path dets hs

/-- C4.  When the save-text flag is off, `overlay_boxes` performs no text
append; when the save-image flag is off it performs no image write; with
both flags off it performs no filesystem event at all and leaves every file
unchanged. -/
theorem C4_no_files_when_flags_off (dets : List Pred) (path ts : String)
    (args : Args) :
    (args.save_txt = false →
      ((overlay_boxes dets path ts args).1).countP isTxtAppend = 0) ∧
    (args.save_img = false →
      ((overlay_boxes dets path ts args).1).countP isImgWrite = 0) ∧
    (args.save_txt = false → args.save_img = false →
      (overlay_boxes dets path ts args).1 = [] ∧
      ∀ (fs : String → List (List Rat)) (q : String),
        runEvents ((overlay_boxes dets path ts args).1) fs q = fs q) := by
  obtain ⟨Δ, hΔ, hflags⟩ :=
    overlayLoop_events_flags args path ts dets ⟨[], [], none⟩
  have hev : (overlay_boxes dets path ts args).1 = Δ := by
    rw [overlay_boxes_events, hΔ]
    simp
  have htxt : args.save_txt = false →
      ((overlay_boxes dets path ts args).1).countP isTxtAppend = 0 := by
    intro hst
    rw [hev, List.countP_eq_zero]
    intro ev hevv
    intro hc
    have := (hflags ev hevv).1 hc
    rw [hst] at this
    exact Bool.false_ne_true this
  have himg : args.save_img = false →
      ((overlay_boxes dets path ts args).1).countP isImgWrite = 0 := by
    intro hsi
    rw [hev, List.countP_eq_zero]
    intro ev hevv
    intro hc
    have := (hflags ev hevv).2 hc
    rw [hsi] at this
    exact Bool.false_ne_true this
  refine ⟨htxt, himg, ?_⟩
  intro hst hsi
  have hnil : (overlay_boxes dets path ts args).1 = [] := by
    rw [hev]
    rw [List.eq_nil_iff_forall_not_mem]
    intro ev hevv
    cases ev with
    | appendTxt q line =>
      have := (hflags _ hevv).1 rfl
      rw [hst] at this
      exact Bool.false_ne_true this
    | writeImg q =>
      have := (hflags _ hevv).2 rfl
      rw [hsi] at this
      exact Bool.false_ne_true this
  refine ⟨hnil, ?_⟩
  intro fs q
  rw [hnil]
  rfl

theorem flatten_filter_img (args : Args) (path : String) (dets : List Pred)
    (hsi : args.save_img = true) :
    ((dets.map (predEvents args path)).flatten).filter isImgWrite =
      List.replicate dets.length
        (FSEvent.writeImg (joinpath args.output_dir (pathName path))) := by
  induction dets with
  | nil => simp
  | cons pred rest ih =>
    simp only [List.map_cons, List.flatten_cons, List.filter_append,
      List.length_cons, List.replicate_succ]
    rw [filter_img_predEvents, hsi, if_pos rfl, ih]
    rfl

/-- C6.  When the save-image flag is enabled (and the run completes
normally), every image write of `overlay_boxes` — one per prediction — goes
to the path formed by joining the configured output directory with the input
image's file name. -/
theorem C6_image_output_path (dets : List Pred) (path ts : String)
    (args : Args) (hsi : args.save_img = true)
    (hok : isOkB (overlay_boxes dets path ts args).2.2 = true) :
    ((overlay_boxes dets path ts args).1).filter isImgWrite =
      List.replicate dets.length
        (FSEvent.writeImg (joinpath args.output_dir (pathName path))) := by
  rw [overlay_boxes_events]
  rw [overlayLoop_ok_events args path ts dets ⟨[], [], none⟩
    (overlay_boxes_isOk dets path ts args hok)]
  simp only [List.nil_append]
  exact flatten_filter_img args path dets hsi

theorem mem_insertSorted (x a : Int) :
    ∀ l : List Int, a ∈ insertSorted x l ↔ a = x ∨ a ∈ l := by
  intro l
  induction l with
  | nil => simp [insertSorted]
  | cons y ys ih =>
    unfold insertSorted
    by_cases hxy : x ≤ y
    · simp [hxy]
    · simp only [hxy, if_false, List.mem_cons, ih]
      tauto

theorem nodup_insertSorted (x : Int) :
    ∀ l : List Int, x ∉ l → l.Nodup → (insertSorted x l).Nodup := by
  intro l
  induction l with
  | nil => intro _ _; simp [insertSorted]
  | cons y ys ih =>
    intro hx hnd
    rw [List.nodup_cons] at hnd
    unfold insertSorted
    by_cases hxy : x ≤ y
    · rw [if_pos hxy, List.nodup_cons, List.nodup_cons]
      exact ⟨hx, hnd⟩
    · rw [if_neg hxy, List.nodup_cons]
      constructor
      · rw [mem_insertSorted]
        rintro (rfl | hy)
        · exact hx (by simp)
        · exact hnd.1 hy
      · exact ih (fun hm => hx (by simp [hm])) hnd.2

theorem mem_sortInts (a : Int) : ∀ l : List Int, a ∈ sortInts l ↔ a ∈ l := by
  intro l
  induction l with
  | nil => simp [sortInts]
  | cons x xs ih =>
    have : sortInts (x :: xs) = insertSorted x (sortInts xs) := rfl
    rw [this, mem_insertSorted, ih]
    simp

theorem nodup_sortInts : ∀ l : List Int, l.Nodup → (sortInts l).Nodup := by
  intro l
  induction l with
  | nil => intro _; simp [sortInts]
  | cons x xs ih =>
    intro hnd
    rw [List.nodup_cons] at hnd
    have : sortInts (x :: xs) = insertSorted x (sortInts xs) := rfl
    rw [this]
    exact nodup_insertSorted x (sortInts xs)
      (fun hm => hnd.1 ((mem_sortInts x xs).mp hm)) (ih hnd.2)

theorem mem_uniqueSorted (a : Int) (l : List Int) :
    a ∈ uniqueSorted l ↔ a ∈ l := by
  unfold uniqueSorted
  rw [mem_sortInts, List.mem_dedup]

theorem nodup_uniqueSorted (l : List Int) : (uniqueSorted l).Nodup :=
  nodup_sortInts l.dedup (List.nodup_dedup l)

theorem summaryLoop_spec (labels : List Int) (names : List String) :
    ∀ (cs : List Int) (L : List (Nat × String)),
      summaryLoop labels names cs = .ok L →
      L.length = cs.length ∧
      ∀ i (h1 : i < L.length) (h2 : i < cs.length),
        (L.get ⟨i, h1⟩).1 = labels.count (cs.get ⟨i, h2⟩) ∧
        pyGet names (cs.get ⟨i, h2⟩) = some (L.get ⟨i, h1⟩).2 := by
  intro cs
  induction cs with
  | nil =>
    intro L h
    unfold summaryLoop at h
    simp only [Except.ok.injEq] at h
    subst h
    exact ⟨rfl, fun i h1 h2 => absurd h2 (Nat.not_lt_zero i)⟩
  | cons c cs ih =>
    intro L h
    unfold summaryLoop at h
    cases hg : pyGet names c with
    | none => rw [hg] at h; simp at h
    | some nm =>
      rw [hg] at h
      simp only at h
      cases hr : summaryLoop labels names cs with
      | error e => rw [hr] at h; simp at h
      | ok rest =>
        rw [hr] at h
        simp only [Except.ok.injEq] at h
        subst h
        obtain ⟨hlen, hidx⟩ := ih rest hr
        refine ⟨by simp [hlen], ?_⟩
        intro i h1 h2
        cases i with
        | zero => exact ⟨rfl, hg⟩
        | succ j =>
          have hj1 : j < rest.length := by
            simpa using h1
          have hj2 : j < cs.length := by
            simpa using h2
          exact hidx j hj1 hj2

/-- C5.  The summary string accumulated into `det_logs` and printed per
image has exactly one `'<count> <name>s'` entry per unique class label
present in the prediction (the per-class loop runs over the sorted distinct
labels, which enumerate exactly the labels present, each once), each entry's
count is the number of detections carrying that label, its name is the label
map entry for that class id, and the accumulated string is the rendering of
those entries in order. -/
theorem C5_summary_counts (labels : List Int) (names : List String)
    (L : List (Nat × String))
    (h : summaryLoop labels names (uniqueSorted labels) = .ok L) :
    (∀ c, c ∈ uniqueSorted labels ↔ c ∈ labels) ∧
    (uniqueSorted labels).Nodup ∧
    L.length = (uniqueSorted labels).length ∧
    (∀ i (h1 : i < L.length) (h2 : i < (uniqueSorted labels).length),
      (L.get ⟨i, h1⟩).1 = labels.count ((uniqueSorted labels).get ⟨i, h2⟩) ∧
      pyGet names ((uniqueSorted labels).get ⟨i, h2⟩) =
        some (L.get ⟨i, h1⟩).2) ∧
    det_logs labels names = .ok (renderSummary L) := by
  obtain ⟨hlen, hidx⟩ := summaryLoop_spec labels names (uniqueSorted labels) L h
  refine ⟨fun c => mem_uniqueSorted c labels, nodup_uniqueSorted labels,
    hlen, hidx, ?_⟩
  unfold det_logs
  rw [h]

/-- Witness for C5 on the prediction labels `[2, 1, 2]` with the name table
`["a", "b", "c"]`: the summary entries are `(1, "b")` and `(2, "c")`. -/
theorem C5_summary_counts_witness :
    summaryLoop [2, 1, 2] ["a", "b", "c"] (uniqueSorted [2, 1, 2]) =
      .ok [(1, "b"), (2, "c")] ∧
    ((1 : Int) ∈ uniqueSorted [2, 1, 2] ↔ (1 : Int) ∈ [(2 : Int), 1, 2]) ∧
    det_logs [2, 1, 2] ["a", "b", "c"] =
      .ok (renderSummary [(1, "b"), (2, "c")]) := by
  refine ⟨rfl, ?_, ?_⟩
  · exact (C5_summary_counts [2, 1, 2] ["a", "b", "c"] [(1, "b"), (2, "c")]
      rfl).1 1
  · exact (C5_summary_counts [2, 1, 2] ["a", "b", "c"] [(1, "b"), (2, "c")]
      rfl).2.2.2.2

theorem lastBound_eq (dets : List Pred) :
    lastBound dets = ((nonEmptyPreds dets).getLast?).map predTriple := by
  induction dets with
  | nil => rfl
  | cons pred rest ih =>
    have hcons : lastBound (pred :: rest) =
        match lastBound rest with
        | some t => some t
        | none => boundOf pred := rfl
    rw [hcons, ih]
    have hne : nonEmptyPreds (pred :: rest) =
        (match pred with
          | none => none
          | some p => if 0 < p.len then some p else none).elim
          (nonEmptyPreds rest) (fun p => p :: nonEmptyPreds rest) := by
      cases pred with
      | none => rfl
      | some p =>
        by_cases hlen : 0 < p.len
        · simp [nonEmptyPreds, List.filterMap_cons, hlen]
        · simp [nonEmptyPreds, List.filterMap_cons, hlen]
    cases pred with
    | none =>
      simp only [hne, Option.elim]
      cases hl : (nonEmptyPreds rest).getLast? <;> simp [boundOf, hl]
    | some p =>
      by_cases hlen : 0 < p.len
      · simp only [hne, hlen, if_pos, Option.elim]
        cases hrest : nonEmptyPreds rest with
        | nil => simp [boundOf, hlen]
        | cons q l =>
          rw [List.getLast?_cons_cons]
          cases hl : (q :: l).getLast? with
          | none =>
            exact absurd (List.getLast?_eq_none_iff.mp hl) (by simp)
          | some u => simp [hl]
      · simp only [hne, hlen, if_neg, Option.elim]
        cases hl : (nonEmptyPreds rest).getLast? <;> simp [boundOf, hlen, hl]

theorem overlay_boxes_unbound (dets : List Pred) (path ts : String)
    (args : Args)
    (h1 : (overlayLoop args path ts dets ⟨[], [], none⟩).2 = none)
    (h2 : (overlayLoop args path ts dets ⟨[], [], none⟩).1.bound = none) :
    (overlay_boxes dets path ts args).2.2 = .error PyErr.unboundLocal := by
  unfold overlay_boxes
  rcases h : overlayLoop args path ts dets ⟨[], [], none⟩ with ⟨st, err⟩
  rw [h] at h1 h2
  simp only at h1 h2
  subst h1
  simp only [h2]

/-- The sufficient condition `isOkB e = true` produces the `ok` payload. -/
theorem isOkB_exists {ε α : Type} (e : Except ε α) (h : isOkB e = true) :
    ∃ v, e = .ok v := by
  cases e with
  | error x => simp [isOkB] at h
  | ok v => exact ⟨v, rfl⟩

/-- C8.  If every prediction is `None` or empty (in particular for an empty
detections list), `overlay_boxes` raises at its `return` statement (the
`boxes`/`scores`/`labels` locals were never assigned); it returns normally
only when at least one prediction is non-empty, and the returned triple is
the rounded boxes, scores and labels of the last non-empty prediction. -/
theorem C8_return_binding (dets : List Pred) (path ts : String)
    (args : Args) :
    ((∀ pred ∈ dets, numBoxes pred = 0) →
      (overlay_boxes dets path ts args).2.2 = .error PyErr.unboundLocal) ∧
    (∀ t, (overlay_boxes dets path ts args).2.2 = .ok t →
      ∃ p, (nonEmptyPreds dets).getLast? = some p ∧ 0 < p.len ∧
        some p ∈ dets ∧ t = predTriple p) := by
  constructor
  · intro hall
    have hempty : ∀ pred ∈ dets, boundOf pred = none := by
      intro pred hp
      have := hall pred hp
      cases pred with
      | none => rfl
      | some p =>
        have hz : p.len = 0 := this
        simp [boundOf, hz]
    obtain ⟨he, hb⟩ := overlayLoop_all_empty args path ts dets ⟨[], [], none⟩
      hempty
    exact overlay_boxes_unbound dets path ts args he hb
  · intro t ht
    obtain ⟨herr, hbound⟩ := (overlay_boxes_ok dets path ts args t).mp ht
    rw [overlayLoop_ok_bound args path ts dets ⟨[], [], none⟩ herr] at hbound
    have hlast : lastBound dets = some t := by
      cases hl : lastBound dets with
      | none => rw [hl] at hbound; simp at hbound
      | some u => rw [hl] at hbound; simp at hbound; rw [hbound]
    rw [lastBound_eq] at hlast
    cases hg : (nonEmptyPreds dets).getLast? with
    | none => rw [hg] at hlast; simp at hlast
    | some p =>
      rw [hg] at hlast
      simp only [Option.map_some'] at hlast
      have hp_mem : p ∈ nonEmptyPreds dets := by
        have : p ∈ (nonEmptyPreds dets).getLast? := hg
        obtain ⟨hne, hpe⟩ := List.mem_getLast?_eq_getLast this
        rw [hpe]
        exact List.getLast_mem hne
      obtain ⟨pr, hpr_mem, hpr⟩ := List.mem_filterMap.mp hp_mem
      cases pr with
      | none => simp at hpr
      | some q =>
        by_cases hlen : 0 < q.len
        · simp only [hlen, if_pos, Option.some.injEq] at hpr
          rw [hpr] at hpr_mem hlen
          exact ⟨p, rfl, hlen, hpr_mem,
            ((Option.some.injEq _ _).mp hlast).symm⟩
        · simp [hlen] at hpr

/-- Witness for C8: on the detections list `[None, (empty prediction)]` the
function raises the unbound-local error, while on a one-element list with a
non-empty prediction (one box, flags off) it returns normally with the data
of that prediction. -/
theorem C8_return_binding_witness :
    ((overlay_boxes [none, some ⟨[], [], []⟩] "imgs/zidane.jpg" "0.1"
        ⟨"out", ["person"], [], false, false⟩).2.2 =
      .error PyErr.unboundLocal) ∧
    (∃ p, (nonEmptyPreds [some ⟨[((0 : Rat), 0, 2, 2)], [1], [0]⟩]).getLast? =
        some p ∧ 0 < p.len) := by
  constructor
  · exact (C8_return_binding [none, some ⟨[], [], []⟩] "imgs/zidane.jpg" "0.1"
      ⟨"out", ["person"], [], false, false⟩).1 (by decide)
  · obtain ⟨t, ht⟩ := isOkB_exists
      ((overlay_boxes [some ⟨[((0 : Rat), 0, 2, 2)], [1], [0]⟩]
        "imgs/zidane.jpg" "0.1" ⟨"out", ["person"], [], false, false⟩).2.2)
      (by decide)
    obtain ⟨p, hp1, hp2, _, _⟩ := (C8_return_binding
      [some ⟨[((0 : Rat), 0, 2, 2)], [1], [0]⟩] "imgs/zidane.jpg" "0.1"
      ⟨"out", ["person"], [], false, false⟩).2 t ht
    exact ⟨p, hp1, hp2⟩

/-- Witness for C2 on one prediction with one box and the save-text flag
on: one append event is counted. -/
theorem C2_one_line_per_detection_witness :
    isOkB (overlay_boxes [some ⟨[((0 : Rat), 0, 2, 2)], [1], [1]⟩]
        "imgs/zidane.jpg" "0.1" ⟨"out", ["x", "y"], [], true, false⟩).2.2 =
      true ∧
    ((overlay_boxes [some ⟨[((0 : Rat), 0, 2, 2)], [1], [1]⟩]
        "imgs/zidane.jpg" "0.1"
        ⟨"out", ["x", "y"], [], true, false⟩).1).countP isTxtAppend =
      (([some ⟨[((0 : Rat), 0, 2, 2)], [1], [1]⟩] : List Pred).map
        (fun pr => numBoxes pr)).sum :=
  ⟨by decide,
   C2_one_line_per_detection [some ⟨[((0 : Rat), 0, 2, 2)], [1], [1]⟩]
    "imgs/zidane.jpg" "0.1" ⟨"out", ["x", "y"], [], true, false⟩ rfl
    (by decide)
    (fun p hp => by
      simp only [List.mem_singleton, Option.some.injEq] at hp
      subst hp
      exact ⟨rfl, rfl⟩)⟩

/-- Witness for C3 on the same one-box prediction. -/
theorem C3_txt_line_format_witness :
    isOkB (overlay_boxes [some ⟨[((0 : Rat), 0, 2, 2)], [1], [1]⟩]
        "imgs/zidane.jpg" "0.1" ⟨"out", ["x", "y"], [], true, false⟩).2.2 =
      true ∧
    txtAppends (joinpath "out" (pathStem "imgs/zidane.jpg") ++ ".txt")
        ((overlay_boxes [some ⟨[((0 : Rat), 0, 2, 2)], [1], [1]⟩]
          "imgs/zidane.jpg" "0.1" ⟨"out", ["x", "y"], [], true, false⟩).1) =
      ((([some ⟨[((0 : Rat), 0, 2, 2)], [1], [1]⟩] : List Pred).map
          predDets).flatten).map
        (fun d => [(d.2.2 : Rat), (d.1.1 + d.1.2.2.1) / 2,
          (d.1.2.1 + d.1.2.2.2) / 2, d.1.2.2.1 - d.1.1,
          d.1.2.2.2 - d.1.2.1]) :=
  ⟨by decide,
   C3_txt_line_format [some ⟨[((0 : Rat), 0, 2, 2)], [1], [1]⟩]
    "imgs/zidane.jpg" "0.1" ⟨"out", ["x", "y"], [], true, false⟩ rfl
    (by decide)⟩

/-- Witness for C4 with both save flags off: no event at all, and a
text-file map is returned unchanged. -/
theorem C4_no_files_when_flags_off_witness :
    (overlay_boxes [some ⟨[((0 : Rat), 0, 2, 2)], [1], [1]⟩]
      "imgs/zidane.jpg" "0.1" ⟨"out", ["x", "y"], [], false, false⟩).1 =
      [] ∧
    runEvents ((overlay_boxes [some ⟨[((0 : Rat), 0, 2, 2)], [1], [1]⟩]
        "imgs/zidane.jpg" "0.1" ⟨"out", ["x", "y"], [], false, false⟩).1)
      (fun _ => [[(7 : Rat)]]) "out/zidane.txt" = [[(7 : Rat)]] :=
  ⟨((C4_no_files_when_flags_off [some ⟨[((0 : Rat), 0, 2, 2)], [1], [1]⟩]
      "imgs/zidane.jpg" "0.1" ⟨"out", ["x", "y"], [], false, false⟩).2.2
      rfl rfl).1,
   ((C4_no_files_when_flags_off [some ⟨[((0 : Rat), 0, 2, 2)], [1], [1]⟩]
      "imgs/zidane.jpg" "0.1" ⟨"out", ["x", "y"], [], false, false⟩).2.2
      rfl rfl).2 (fun _ => [[(7 : Rat)]]) "out/zidane.txt"⟩

/-- Witness for C6 with the save-image flag on: the single image write goes
to the output directory under the input image's file name. -/
theorem C6_image_output_path_witness :
    isOkB (overlay_boxes [some ⟨[((0 : Rat), 0, 2, 2)], [1], [1]⟩]
        "imgs/zidane.jpg" "0.1"
        ⟨"out", ["x", "y"], [(1, 2, 3)], false, true⟩).2.2 = true ∧
    ((overlay_boxes [some ⟨[((0 : Rat), 0, 2, 2)], [1], [1]⟩]
        "imgs/zidane.jpg" "0.1"
        ⟨"out", ["x", "y"], [(1, 2, 3)], false, true⟩).1).filter
      isImgWrite =
      List.replicate 1
        (FSEvent.writeImg (joinpath "out" (pathName "imgs/zidane.jpg"))) :=
  ⟨by decide,
   C6_image_output_path [some ⟨[((0 : Rat), 0, 2, 2)], [1], [1]⟩]
    "imgs/zidane.jpg" "0.1" ⟨"out", ["x", "y"], [(1, 2, 3)], false, true⟩
    rfl (by decide)⟩

/-- Witness for C9 with the save-text flag on: prior contents of a file map
are preserved with the appended lines after them, and the appended lines are
the detection lines. -/
theorem C9_append_mode_witness :
    runEvents ((overlay_boxes [some ⟨[((0 : Rat), 0, 2, 2)], [1], [1]⟩]
        "imgs/zidane.jpg" "0.1" ⟨"out", ["x", "y"], [], true, false⟩).1)
      (fun _ => [[(7 : Rat)]]) "out/zidane.txt" =
      [[(7 : Rat)]] ++ txtAppends "out/zidane.txt"
        ((overlay_boxes [some ⟨[((0 : Rat), 0, 2, 2)], [1], [1]⟩]
          "imgs/zidane.jpg" "0.1"
          ⟨"out", ["x", "y"], [], true, false⟩).1) ∧
    txtAppends (joinpath "out" (pathStem "imgs/zidane.jpg") ++ ".txt")
        ((overlay_boxes [some ⟨[((0 : Rat), 0, 2, 2)], [1], [1]⟩]
          "imgs/zidane.jpg" "0.1" ⟨"out", ["x", "y"], [], true, false⟩).1) =
      ((([some ⟨[((0 : Rat), 0, 2, 2)], [1], [1]⟩] : List Pred).map
        predDets).flatten).map lineOf :=
  ⟨(C9_append_mode [some ⟨[((0 : Rat), 0, 2, 2)], [1], [1]⟩]
      "imgs/zidane.jpg" "0.1" ⟨"out", ["x", "y"], [], true, false⟩ rfl).1
    (fun _ => [[(7 : Rat)]]) "out/zidane.txt",
   (C9_append_mode [some ⟨[((0 : Rat), 0, 2, 2)], [1], [1]⟩]
      "imgs/zidane.jpg" "0.1" ⟨"out", ["x", "y"], [], true, false⟩ rfl).2
    (by decide)⟩

/-- C10.  The color lookup of a detection uses the class id modulo the
number of colors, so with a non-empty colors list it is in bounds for every
non-negative class id, including ids at least the number of colors; the name
lookup for the same id has no such guard: when it is out of range the write
step raises `IndexError`. -/
theorem C10_color_index_in_bounds (args : Args) (tp : String) (xyxy : Box)
    (cls : Int) (h1 : args.colors ≠ []) (h2 : 0 ≤ cls) :
    (0 ≤ colorIndex cls args.colors.length ∧
      colorIndex cls args.colors.length < (args.colors.length : Int) ∧
      (pyGet args.colors (colorIndex cls args.colors.length)).isSome =
        true) ∧
    (args.save_img = true → pyGet args.names cls = none →
      (writeStep args tp xyxy cls).2 = some PyErr.indexError) := by
  have hlen0 : args.colors.length ≠ 0 := by
    intro hc
    exact h1 (List.length_eq_zero.mp hc)
  have hpos : (0 : Int) < (args.colors.length : Int) := by
    exact_mod_cast Nat.pos_of_ne_zero hlen0
  have hnz : (args.colors.length : Int) ≠ 0 := by
    exact_mod_cast hlen0
  have hnn : 0 ≤ colorIndex cls args.colors.length :=
    Int.emod_nonneg cls hnz
  have hlt : colorIndex cls args.colors.length < (args.colors.length : Int) :=
    Int.emod_lt_of_pos cls hpos
  refine ⟨⟨hnn, hlt, ?_⟩, ?_⟩
  · unfold pyGet
    rw [if_pos hnn]
    cases hc : args.colors.get? (colorIndex cls args.colors.length).toNat with
    | none =>
      have hge := List.get?_eq_none.mp hc
      omega
    | some c => rfl
  · intro hsi hnone
    unfold writeStep
    rw [hsi, if_pos rfl, hnone]

/-- Witness for C10 with one color, one name and class id `5`. -/
theorem C10_color_index_in_bounds_witness :
    (0 ≤ colorIndex 5 [((0 : Nat), (0 : Nat), (0 : Nat))].length ∧
      colorIndex 5 [((0 : Nat), (0 : Nat), (0 : Nat))].length <
        (([((0 : Nat), (0 : Nat), (0 : Nat))].length : Nat) : Int) ∧
      (pyGet [((0 : Nat), (0 : Nat), (0 : Nat))]
        (colorIndex 5 [((0 : Nat), (0 : Nat), (0 : Nat))].length)).isSome =
        true) ∧
    (true = true → pyGet ["person"] (5 : Int) = none →
      (writeStep ⟨"out", ["person"], [((0 : Nat), (0 : Nat), (0 : Nat))],
        false, true⟩ "out/zidane" ((0 : Rat), 0, 2, 2) 5).2 =
        some PyErr.indexError) :=
  C10_color_index_in_bounds
    ⟨"out", ["person"], [((0 : Nat), (0 : Nat), (0 : Nat))], false, true⟩
    "out/zidane" ((0 : Rat), 0, 2, 2) 5 (by decide) (by decide)

end Detect
